import Mathlib

/-
Verification of the `es` bytecode VM (Rust sources: src/value.rs, src/instruction.rs,
src/vm.rs, src/process.rs, src/ast.rs, src/generator.rs).

Shallow embedding notes:
* Rust `f64` is modelled by `F64` below: an exact rational (`Q`, a normalized
  fraction type whose operations evaluate inside the kernel) for every finite
  double, plus the IEEE special values `inf`, `negInf`, `nan`.  Rounding is not modelled
  (every program verified here computes only exactly representable small values),
  and neither is signed zero.  `x / 0` follows IEEE: `nan` when `x = 0`, a signed
  infinity otherwise — faithful to Rust's `/` on `f64`, which never panics.
* Rust `usize` register / instruction indices are `Nat`.  Out-of-range register
  accesses panic in Rust; the embedding totalises reads with `getD` (default
  `Value.Empty`) and writes with `List.set` (no-op out of range); theorems about
  register contents therefore carry in-range hypotheses where it matters.
* `HashMap<String, Value>` is modelled as an association list with replace-on-insert,
  which has the same lookup semantics (`insert` overwrites the binding of a key).
* `run_program`'s `while` loop is embedded with explicit fuel; `none` means the
  fuel ran out, `some` is the loop's actual outcome.
-/

/-- Fuel-driven Euclid; `gcdFuel (b + 1) a b` equals `gcd a b` (the second
argument strictly decreases each step, so `b + 1` steps always suffice). -/
def gcdFuel : Nat → Nat → Nat → Nat
  | 0, a, _ => a
  | _ + 1, a, 0 => a
  | fuel + 1, a, b => gcdFuel fuel b (a % b)

/-- An exact rational, kept normalized (coprime, positive denominator) by
`Q.mk'.  The finite `f64` values occurring in the verified programs are all
exactly representable rationals and their arithmetic is exact, so exact
rational arithmetic models Rust's `f64` arithmetic faithfully on them. -/
structure Q where
  num : Int
  den : Int
deriving DecidableEq, Repr

namespace Q

/-- Build the normalized rational `n / d` (` ⟨0, 0⟩` for the never-used `d = 0`). -/
def mk' (n d : Int) : Q :=
  if d = 0 then ⟨0, 0⟩
  else
    let s : Int := if d < 0 then -1 else 1
    let n := s * n
    let d := s * d
    let g : Int := Int.ofNat (gcdFuel (d.natAbs + 1) n.natAbs d.natAbs)
    ⟨n / g, d / g⟩

/-- The integer `n` as a rational. -/
def ofInt (n : Int) : Q := ⟨n, 1⟩

/-- Test `0 < q` (the denominator of a normalized rational is positive). -/
def pos (q : Q) : Bool := decide (0 < q.num)

/-- Test `q < 0`. -/
def neg (q : Q) : Bool := decide (q.num < 0)

/-- Test `q = 0`. -/
def isZero (q : Q) : Bool := decide (q.num = 0)

/-- Exact rational addition. -/
def add (a b : Q) : Q := mk' (a.num * b.den + b.num * a.den) (a.den * b.den)

/-- Exact rational subtraction. -/
def sub (a b : Q) : Q := mk' (a.num * b.den - b.num * a.den) (a.den * b.den)

/-- Exact rational multiplication. -/
def mul (a b : Q) : Q := mk' (a.num * b.num) (a.den * b.den)

/-- Exact rational division (callers guard the zero divisor). -/
def div (a b : Q) : Q := mk' (a.num * b.den) (a.den * b.num)

end Q

example : Q.add (.ofInt 2) (.ofInt 3) = .ofInt 5 := by decide
example : Q.sub (.ofInt 5) (.ofInt 3) = .ofInt 2 := by decide
example : Q.div (.ofInt 3) (.ofInt 6) = ⟨1, 2⟩ := by decide

/-- Model of Rust `f64`: exact rationals plus the IEEE special values. -/
inductive F64 where
  | finite (q : Q)
  | inf
  | negInf
  | nan
deriving DecidableEq, Repr

namespace F64

/-- IEEE addition on the model (exact on finite values). -/
def add : F64 → F64 → F64
  | nan, _ => nan
  | _, nan => nan
  | finite a, finite b => finite (a.add b)
  | inf, negInf => nan
  | negInf, inf => nan
  | inf, _ => inf
  | _, inf => inf
  | negInf, _ => negInf
  | _, negInf => negInf

/-- IEEE subtraction on the model (exact on finite values). -/
def sub : F64 → F64 → F64
  | nan, _ => nan
  | _, nan => nan
  | finite a, finite b => finite (a.sub b)
  | inf, inf => nan
  | negInf, negInf => nan
  | inf, _ => inf
  | _, inf => negInf
  | negInf, _ => negInf
  | _, negInf => inf

/-- IEEE multiplication on the model (exact on finite values). -/
def mul : F64 → F64 → F64
  | nan, _ => nan
  | _, nan => nan
  | finite a, finite b => finite (a.mul b)
  | inf, finite b => if b.pos then inf else if b.neg then negInf else nan
  | finite a, inf => if a.pos then inf else if a.neg then negInf else nan
  | negInf, finite b => if b.pos then negInf else if b.neg then inf else nan
  | finite a, negInf => if a.pos then negInf else if a.neg then inf else nan
  | inf, inf => inf
  | negInf, negInf => inf
  | inf, negInf => negInf
  | negInf, inf => negInf

/-- IEEE division on the model.  Division by exact zero produces an infinity
(or `nan` for `0 / 0`), exactly as Rust's `f64` division does (it never
raises anything). -/
def div : F64 → F64 → F64
  | nan, _ => nan
  | _, nan => nan
  | finite a, finite b =>
      if b.isZero then (if a.isZero then nan else if a.pos then inf else negInf)
      else finite (a.div b)
  | inf, finite b => if b.neg then negInf else inf
  | negInf, finite b => if b.neg then inf else negInf
  | finite _, inf => finite (.ofInt 0)
  | finite _, negInf => finite (.ofInt 0)
  | inf, inf => nan
  | inf, negInf => nan
  | negInf, inf => nan
  | negInf, negInf => nan

/-- The comparison `val > 0.0` used by `JmpFalse` (false for `nan`, IEEE-style). -/
def gtZero : F64 → Bool
  | finite q => q.pos
  | inf => true
  | negInf => false
  | nan => false

/-- Rust's `f64::to_string` restricted to the values that occur here: an
integral double prints with no decimal point (`3.0` prints as `"3"`), which is
exactly Rust's behaviour; the non-integral rendering is approximated. -/
def fmt : F64 → String
  | finite q => if q.den = 1 then toString q.num
                else toString q.num ++ "/" ++ toString q.den
  | inf => "inf"
  | negInf => "-inf"
  | nan => "NaN"

end F64

/-- src/value.rs `Value`. -/
inductive Value where
  | Empty
  | Number (n : F64)
  | Boolean (b : Bool)
  | String (s : String)
deriving DecidableEq, Repr

/-- src/instruction.rs `Register`. -/
structure Register where
  index : Nat
deriving DecidableEq, Repr

/-- src/instruction.rs `Instruction`. -/
inductive Instruction where
  | Halt
  | Load (reg : Register) (value : Value)
  | Store (name : String) (reg : Register)
  | LoadVar (reg : Register) (name : String)
  | Add (dest : Register) (reg1 : Register) (reg2 : Register)
  | Sub (dest : Register) (reg1 : Register) (reg2 : Register)
  | Mul (dest : Register) (reg1 : Register) (reg2 : Register)
  | Div (dest : Register) (reg1 : Register) (reg2 : Register)
  | Jmp (dest : Nat)
  | JmpFalse (reg : Register) (dest : Nat)
  | DbgPrintReg (reg : Register)
  | DbgPrintVar (name : String)
deriving DecidableEq, Repr

/-- src/vm.rs `VMError` (the source spells it `TypeMisMatch`). -/
inductive VMError where
  | TypeMisMatch (pid : Nat)
  | DivisionByZero (pid : Nat)
  | BadAddress (pid : Nat)
  | UndefinedVariable (pid : Nat) (name : String)
deriving DecidableEq, Repr

/-- Rust `HashMap::insert`: replace the binding of a present key, else append. -/
def varsInsert {α : Type} (m : List (String × α)) (k : String) (v : α) :
    List (String × α) :=
  match m with
  | [] => [(k, v)]
  | (k', v') :: rest =>
      if k' = k then (k, v) :: rest else (k', v') :: varsInsert rest k v

/-- Rust `HashMap::get`. -/
def varsGet {α : Type} (m : List (String × α)) (k : String) : Option α :=
  match m with
  | [] => none
  | (k', v') :: rest => if k' = k then some v' else varsGet rest k

/-- src/process.rs `Process`. -/
structure Process where
  pid : Nat
  registers : List Value
  ip : Nat
  program : List Instruction
  vars : List (String × Value)
  halt : Bool
deriving DecidableEq, Repr

namespace Process

/-- src/process.rs `Process::new`. -/
def new (pid : Nat) : Process :=
  { pid := pid, registers := [], program := [], vars := [], ip := 0, halt := false }

/-- src/process.rs `Process::load_program`: replaces the program and the register
file (all `Empty`, sized `max_registers`); touches nothing else. -/
def load_program (p : Process) (program : List Instruction) (max_registers : Nat) :
    Process :=
  { p with program := program, registers := List.replicate max_registers Value.Empty }

/-- Read a register (Rust panics out of range; here `Empty`, see header note). -/
def regGet (p : Process) (r : Register) : Value :=
  p.registers.getD r.index Value.Empty

/-- Write a register (Rust panics out of range; here a no-op, see header note). -/
def regSet (p : Process) (r : Register) (v : Value) : Process :=
  { p with registers := p.registers.set r.index v }

/-- src/process.rs `Process::execute`.  Every `return Err` in the source happens
before any state write, so the error case returns no state change.  The two
debug-print instructions only write to stdout (the `DbgPrintVar` arm `unwrap`s
and would panic on an absent name; panics are outside the error model). -/
def execute (p : Process) (instruction : Instruction) : Except VMError Process :=
  match instruction with
  | .Halt => .ok { p with halt := true }
  | .Load reg value => .ok (p.regSet reg value)
  | .Add dest reg1 reg2 =>
      match p.regGet reg1, p.regGet reg2 with
      | .Number v1, .Number v2 => .ok (p.regSet dest (.Number (v1.add v2)))
      | .String s1, .String s2 => .ok (p.regSet dest (.String (s1 ++ s2)))
      | .String s, .Number n => .ok (p.regSet dest (.String (s ++ n.fmt)))
      | .Number n, .String s => .ok (p.regSet dest (.String (s ++ n.fmt)))
      | _, _ => .error (.TypeMisMatch p.pid)
  | .Sub dest reg1 reg2 =>
      match p.regGet reg1, p.regGet reg2 with
      | .Number v1, .Number v2 => .ok (p.regSet dest (.Number (v1.sub v2)))
      | _, _ => .error (.TypeMisMatch p.pid)
  | .Mul dest reg1 reg2 =>
      match p.regGet reg1, p.regGet reg2 with
      | .Number v1, .Number v2 => .ok (p.regSet dest (.Number (v1.mul v2)))
      | _, _ => .error (.TypeMisMatch p.pid)
  | .Div dest reg1 reg2 =>
      match p.regGet reg1, p.regGet reg2 with
      | .Number v1, .Number v2 => .ok (p.regSet dest (.Number (v1.div v2)))
      | _, _ => .error (.TypeMisMatch p.pid)
  | .Jmp dest => .ok { p with ip := dest }
  | .JmpFalse reg dest =>
      let cond :=
        match p.regGet reg with
        | .Number val => val.gtZero
        | .Boolean val => val
        | _ => false
      if cond then .ok p else .ok { p with ip := dest - 1 }
  | .Store var_name reg =>
      .ok { p with vars := varsInsert p.vars var_name (p.regGet reg) }
  | .LoadVar reg var_name =>
      match varsGet p.vars var_name with
      | some value => .ok (p.regSet reg value)
      | none => .error (.UndefinedVariable p.pid var_name)
  | .DbgPrintReg _ => .ok p
  | .DbgPrintVar _ => .ok p

end Process

/-- Outcome of `run_program`: `ok` with the final state, or `err` with the error
and the state at the moment of the error (in Rust the process keeps the partial
mutations of instructions before the failing one). -/
inductive RunResult where
  | ok (p : Process)
  | err (e : VMError) (p : Process)
deriving DecidableEq, Repr

/-- One iteration of the `while` loop of src/process.rs `Process::run_program`:
if the loop guard `ip < program.len() && !halt` fails, the loop is over with
`Ok(())` (`inl (ok p)`); otherwise the current instruction is fetched and
executed — an error ends the run (`inl (err e p)`, the state unchanged by the
failing instruction), and on success `ip` is advanced by 1 — unconditionally,
for every instruction kind including jumps — and the loop continues (`inr`). -/
def stepA (p : Process) : Sum RunResult Process :=
  if p.ip < p.program.length ∧ p.halt = false then
    match p.execute (p.program.getD p.ip .Halt) with
    | .error e => .inl (.err e p)
    | .ok p' => .inr { p' with ip := p'.ip + 1 }
  else
    .inl (.ok p)

/-- The whole loop of `run_program`: iterate `stepA`, with fuel bounding the
number of continuing iterations (`none` = fuel ran out; the loop itself has no
bound and can run forever). -/
def runFuel (fuel : Nat) (p : Process) : Option RunResult :=
  match stepA p with
  | .inl r => some r
  | .inr p' =>
      match fuel with
      | 0 => none
      | fuel' + 1 => runFuel fuel' p'

/-- src/process.rs `Process::run_program`: resets `ip` to 0 (but not `halt`)
then runs the loop. -/
def run_program (fuel : Nat) (p : Process) : Option RunResult :=
  runFuel fuel { p with ip := 0 }

/-- The C1 scenario program: `r0 := 1.0; r1 := 0.0; Div(r2, r0, r1)`. -/
def c1prog : List Instruction :=
  [.Load ⟨0⟩ (.Number (.finite (.ofInt 1))), .Load ⟨1⟩ (.Number (.finite (.ofInt 0))),
   .Div ⟨2⟩ ⟨0⟩ ⟨1⟩]

/-- C1.  The claim says a `Div` whose divisor register holds `Number(0.0)` makes
`run_program` return a `DivisionByZero` error, leaves `dest` unmutated and
produces no infinity.  The code does the opposite: `Process::execute`'s `Div`
arm performs `v1 / v2` with no zero check (`VMError::DivisionByZero` is declared
in src/vm.rs but never constructed anywhere), so the run succeeds, `dest` is
mutated, and the stored result is the IEEE infinity `1.0 / 0.0`. -/
theorem C1_div_by_zero_not_raised :
    run_program 10 ((Process.new 0).load_program c1prog 3) =
      some (.ok { pid := 0,
                  registers := [.Number (.finite (.ofInt 1)), .Number (.finite (.ofInt 0)),
                                .Number .inf],
                  ip := 3, program := c1prog, vars := [], halt := false }) := by
  decide

/-- The C2 counterexample program: `Jmp 1; r0 := 1.0; r1 := 2.0`. -/
def c2prog : List Instruction :=
  [.Jmp 1, .Load ⟨0⟩ (.Number (.finite (.ofInt 1))), .Load ⟨1⟩ (.Number (.finite (.ofInt 2)))]

/-- C2 counterexample.  If, as the claim states, `Jmp 1` landed on index 1, the
run would execute `Load r0 1.0` and leave `r0 = Number 1.0`.  Instead the run
terminates with `r0` still `Empty` and `r1 = Number 2.0`: the instruction at
the jump target (index 1) was skipped, only index `target + 1 = 2` ran, because
`run_program` applies its `ip += 1` advance after every instruction, jumps
included. -/
theorem C2_counterexample :
    run_program 10 ((Process.new 0).load_program c2prog 2) =
      some (.ok { pid := 0, registers := [.Empty, .Number (.finite (.ofInt 2))],
                  ip := 3, program := c2prog, vars := [], halt := false }) := by
  decide

/-- C2 (amended).  After executing `Jmp target` the loop's post-increment still
applies, so the next instruction fetched is the one at index `target + 1`, not
`target`: one unfolding of the run loop on a `Jmp` continues from `target + 1`. -/
theorem C2_jmp_lands_on_target_plus_one (p : Process) (t fuel : Nat)
    (h1 : p.ip < p.program.length) (h2 : p.halt = false)
    (h3 : p.program.getD p.ip .Halt = .Jmp t) :
    runFuel (fuel + 1) p = runFuel fuel { p with ip := t + 1 } := by
  have hs : stepA p = .inr { p with ip := t + 1 } := by
    rw [stepA, if_pos ⟨h1, h2⟩, h3]
    rfl
  rw [runFuel, hs]

/-- Witness for `C2_jmp_lands_on_target_plus_one` at a concrete state. -/
theorem C2_jmp_lands_on_target_plus_one_witness :
    (((Process.new 0).load_program c2prog 2).ip <
        ((Process.new 0).load_program c2prog 2).program.length ∧
      ((Process.new 0).load_program c2prog 2).halt = false ∧
      ((Process.new 0).load_program c2prog 2).program.getD
        ((Process.new 0).load_program c2prog 2).ip .Halt = .Jmp 1) ∧
    runFuel 3 ((Process.new 0).load_program c2prog 2) =
      runFuel 2 { (Process.new 0).load_program c2prog 2 with ip := 2 } :=
  ⟨⟨by decide, by decide, by decide⟩,
   C2_jmp_lands_on_target_plus_one _ 1 2 (by decide) (by decide) (by decide)⟩

/-- The process state after running the one-instruction program `[Halt]`. -/
def c3afterHalt : Process :=
  { pid := 0, registers := [.Empty], ip := 1, program := [.Halt], vars := [],
    halt := true }

/-- C3.  The claim says that after a run terminated by `Halt`, loading a new
program and re-running executes the new program with a fresh all-`Empty`
register file.  The register file is indeed reset, but neither `load_program`
nor `run_program` ever clears the `halt` flag, so the second run's loop guard
`!self.halt` fails immediately: the reloaded `Load r0 1.0` never executes and
`r0` stays `Empty` (it would be `Number 1.0` if the claim held). -/
theorem C3_halt_flag_never_cleared :
    run_program 5 ((Process.new 0).load_program [.Halt] 1) = some (.ok c3afterHalt) ∧
    run_program 5 (c3afterHalt.load_program [.Load ⟨0⟩ (.Number (.finite (.ofInt 1)))] 1) =
      some (.ok { pid := 0, registers := [.Empty], ip := 0,
                  program := [.Load ⟨0⟩ (.Number (.finite (.ofInt 1)))], vars := [],
                  halt := true }) := by
  constructor
  · decide
  · decide

/-- C8.  `load_program` replaces the program, replaces the register file with
`max_registers` copies of `Empty`, and leaves the variable store and the
process id untouched. -/
theorem C8_load_program_frame (p : Process) (prog : List Instruction) (n : Nat) :
    (p.load_program prog n).program = prog ∧
    (p.load_program prog n).registers = List.replicate n Value.Empty ∧
    (p.load_program prog n).vars = p.vars ∧
    (p.load_program prog n).pid = p.pid :=
  ⟨rfl, rfl, rfl, rfl⟩

/-- src/ast.rs `BinaryOperator`. -/
inductive BinaryOperator where
  | Add
  | Subtract
  | Multiply
  | Divide

/-
src/ast.rs `ASTNode`.  The Rust type nests `Vec<ASTNode>` (blocks) and
`Option<Box<ASTNode>>` (else branches); the embedding unfolds those two
containers into the mutual inductives `ASTList` and `OptASTNode` — an
isomorphic representation that lets the generator below be compiled by
structural recursion (so that it reduces inside `decide`).
-/
mutual
inductive ASTNode where
  | StringLiteral (s : String)
  | NumberLiteral (n : F64)
  | BinaryOp (left : ASTNode) (op : BinaryOperator) (right : ASTNode)
  | Variable (name : String)
  | Assignment (name : String) (value : ASTNode)
  | If (condition : ASTNode) (then_branch : ASTNode) (else_branch : OptASTNode)
  | While (condition : ASTNode) (body : ASTNode)
  | Block (statements : ASTList)

inductive OptASTNode where
  | none
  | some (node : ASTNode)

inductive ASTList where
  | nil
  | cons (head : ASTNode) (tail : ASTList)
end

/-- src/generator.rs `BytecodeGenerator` (`vars` is the source's `variables`
table, compile-time bookkeeping only). -/
structure BytecodeGenerator where
  instructions : List Instruction
  next_register : Nat
  vars : List (String × Register)

/-- src/generator.rs `BytecodeGenerator::new`. -/
def BytecodeGenerator.new : BytecodeGenerator :=
  { instructions := [], next_register := 0, vars := [] }

/-- src/generator.rs `BytecodeGenerator::allocate_register`: a monotonically
increasing counter, never reused. -/
def allocate_register (g : BytecodeGenerator) : Register × BytecodeGenerator :=
  (⟨g.next_register⟩, { g with next_register := g.next_register + 1 })

/-
src/generator.rs `BytecodeGenerator::generate`.  The Rust method mutates
`self`; the embedding threads the generator state explicitly and returns
(result register, new state), with `generateList` playing the role of the
`for` loop in the `Block` arm (threading the running `last_reg`).
-/
mutual
def generate (node : ASTNode) (g : BytecodeGenerator) :
    Register × BytecodeGenerator :=
  match node with
  | .NumberLiteral value =>
      let (reg, g) := allocate_register g
      (reg, { g with instructions := g.instructions ++ [Instruction.Load reg (Value.Number value)] })
  | .StringLiteral s =>
      let (reg, g) := allocate_register g
      (reg, { g with instructions := g.instructions ++ [Instruction.Load reg (Value.String s)] })
  | .BinaryOp left op right =>
      let (left_reg, g) := generate left g
      let (right_reg, g) := generate right g
      let (result_reg, g) := allocate_register g
      let instruction :=
        match op with
        | .Add => Instruction.Add result_reg left_reg right_reg
        | .Subtract => Instruction.Sub result_reg left_reg right_reg
        | .Multiply => Instruction.Mul result_reg left_reg right_reg
        | .Divide => Instruction.Div result_reg left_reg right_reg
      (result_reg, { g with instructions := g.instructions ++ [instruction] })
  | .Variable name =>
      let (reg, g) := allocate_register g
      (reg, { g with instructions := g.instructions ++ [Instruction.LoadVar reg name] })
  | .Assignment name value =>
      let (value_reg, g) := generate value g
      let g := { g with instructions := g.instructions ++ [Instruction.Store name value_reg] }
      (value_reg, { g with vars := varsInsert g.vars name value_reg })
  | .Block statements =>
      let (last_reg, g) := allocate_register g
      generateList statements last_reg g
  | .If condition then_branch else_branch =>
      let (condition_reg, g) := generate condition g
      let then_label := g.instructions.length
      let g := { g with instructions := g.instructions ++ [Instruction.JmpFalse condition_reg 0] }
      let (_, g) := generate then_branch g
      let end_label := g.instructions.length
      match else_branch with
      | .some else_b =>
          let else_label := g.instructions.length
          let g := { g with instructions := g.instructions ++ [Instruction.Jmp 0] }
          let g := { g with instructions := g.instructions.set then_label (Instruction.JmpFalse condition_reg (else_label + 1)) }
          let (_, g) := generate else_b g
          let g := { g with instructions := g.instructions.set else_label (Instruction.Jmp g.instructions.length) }
          allocate_register g
      | .none =>
          let g := { g with instructions := g.instructions.set then_label (Instruction.JmpFalse condition_reg end_label) }
          allocate_register g
  | .While condition body =>
      let loop_start := g.instructions.length
      let (condition_reg, g) := generate condition g
      let body_start := g.instructions.length
      let g := { g with instructions := g.instructions ++ [Instruction.JmpFalse condition_reg 0] }
      let (_, g) := generate body g
      let g := { g with instructions := g.instructions ++ [Instruction.Jmp loop_start] }
      let loop_end := g.instructions.length
      let g := { g with instructions := g.instructions.set body_start (Instruction.JmpFalse condition_reg loop_end) }
      allocate_register g

def generateList (statements : ASTList) (last_reg : Register)
    (g : BytecodeGenerator) : Register × BytecodeGenerator :=
  match statements with
  | .nil => (last_reg, g)
  | .cons s rest =>
      let (r, g) := generate s g
      generateList rest r g
end

/-- Compile an AST with a fresh generator and load the result into `p`, with
`max_registers := next_register`, exactly as src/main.rs wires the pipeline
(`process.load_program(generator.instructions, generator.next_register)`). -/
def compileInto (p : Process) (node : ASTNode) : Process :=
  let g := (generate node BytecodeGenerator.new).2
  p.load_program g.instructions g.next_register

/-- The named variable's final value when a run terminated without error;
`none` when the run errored or the fuel ran out. -/
def varOf (r : Option RunResult) (name : String) : Option Value :=
  match r with
  | some (.ok p) => varsGet p.vars name
  | _ => none

/-- The C4 program: `x := 0; while (5 - x) { x := x + 1 }`. -/
def c4ast : ASTNode :=
  .Block (.cons (.Assignment "x" (.NumberLiteral (.finite (.ofInt 0))))
    (.cons (.While
        (.BinaryOp (.NumberLiteral (.finite (.ofInt 5))) .Subtract (.Variable "x"))
        (.Block (.cons
          (.Assignment "x" (.BinaryOp (.Variable "x") .Add (.NumberLiteral (.finite (.ofInt 1)))))
          .nil)))
      .nil))

/-- C4.  Compiling `x := 0; while (5 - x) { x := x + 1 }` and running it on a
fresh process terminates without error, and the variable store maps `x` to
`Number 5.0`.  (`varOf` is `some _` only on a successful terminated run.) -/
theorem C4_while_loop_x_eq_five :
    varOf (run_program 100 (compileInto (Process.new 0) c4ast)) "x" =
      some (.Number (.finite (.ofInt 5))) := by
  decide

/-- The C5 program: `if (x - 5) { result := 1 } else { result := 0 }`. -/
def c5ast : ASTNode :=
  .If (.BinaryOp (.Variable "x") .Subtract (.NumberLiteral (.finite (.ofInt 5))))
      (.Assignment "result" (.NumberLiteral (.finite (.ofInt 1))))
      (.some (.Assignment "result" (.NumberLiteral (.finite (.ofInt 0)))))

/-- C5.  Compiling `if (x - 5) { result := 1 } else { result := 0 }` and
running it on a process whose variable store already maps `x` to `Number 5.0`
terminates with `result` bound to `Number 0.0` (the condition evaluates to
`0`, which is falsy, so the else branch runs). -/
theorem C5_if_else_result_zero :
    varOf (run_program 100 (compileInto
        { Process.new 0 with vars := [("x", Value.Number (F64.finite (Q.ofInt 5)))] }
        c5ast)) "result" =
      some (.Number (.finite (.ofInt 0))) := by
  decide

/-- The C6 program: `hello := "hi "; world := 3; s := hello + world`. -/
def c6ast : ASTNode :=
  .Block (.cons (.Assignment "hello" (.StringLiteral "hi "))
    (.cons (.Assignment "world" (.NumberLiteral (.finite (.ofInt 3))))
      (.cons (.Assignment "s" (.BinaryOp (.Variable "hello") .Add (.Variable "world")))
        .nil)))

/-- C6.  `Add` on two Text operands concatenates them; on a Text and a Number
operand — in either order — it produces the Text with the number formatted and
appended (the source's `s.clone() + &n.to_string()` puts the text first in both
orders).  In particular, compiling and running
`hello := "hi "; world := 3; s := hello + world` binds `s` to Text `"hi 3"`. -/
theorem C6_add_text_semantics (p : Process) (dest r1 r2 : Register) :
    (∀ s1 s2, p.regGet r1 = .String s1 → p.regGet r2 = .String s2 →
      p.execute (.Add dest r1 r2) = .ok (p.regSet dest (.String (s1 ++ s2)))) ∧
    (∀ s n, p.regGet r1 = .String s → p.regGet r2 = .Number n →
      p.execute (.Add dest r1 r2) = .ok (p.regSet dest (.String (s ++ n.fmt)))) ∧
    (∀ n s, p.regGet r1 = .Number n → p.regGet r2 = .String s →
      p.execute (.Add dest r1 r2) = .ok (p.regSet dest (.String (s ++ n.fmt)))) ∧
    varOf (run_program 100 (compileInto (Process.new 0) c6ast)) "s" =
      some (.String "hi 3") := by
  refine ⟨?_, ?_, ?_, by decide⟩
  · intro s1 s2 h1 h2
    simp [Process.execute, h1, h2]
  · intro s n h1 h2
    simp [Process.execute, h1, h2]
  · intro n s h1 h2
    simp [Process.execute, h1, h2]

/-- A concrete register file for the C6 witness. -/
def c6proc : Process :=
  { Process.new 0 with
      registers := [.String "a", .Number (.finite (.ofInt 2)), .String "b", .Empty] }

/-- Witness for `C6_add_text_semantics` at concrete registers. -/
theorem C6_add_text_semantics_witness :
    c6proc.execute (.Add ⟨3⟩ ⟨0⟩ ⟨2⟩) =
      .ok (c6proc.regSet ⟨3⟩ (.String ("a" ++ "b"))) ∧
    c6proc.execute (.Add ⟨3⟩ ⟨0⟩ ⟨1⟩) =
      .ok (c6proc.regSet ⟨3⟩ (.String ("a" ++ (F64.finite (Q.ofInt 2)).fmt))) ∧
    c6proc.execute (.Add ⟨3⟩ ⟨1⟩ ⟨0⟩) =
      .ok (c6proc.regSet ⟨3⟩ (.String ("a" ++ (F64.finite (Q.ofInt 2)).fmt))) :=
  ⟨(C6_add_text_semantics c6proc ⟨3⟩ ⟨0⟩ ⟨2⟩).1 "a" "b" rfl rfl,
   (C6_add_text_semantics c6proc ⟨3⟩ ⟨0⟩ ⟨1⟩).2.1 "a" (.finite (.ofInt 2)) rfl rfl,
   (C6_add_text_semantics c6proc ⟨3⟩ ⟨1⟩ ⟨0⟩).2.2.1 (.finite (.ofInt 2)) "a" rfl rfl⟩

/-- The falsiness test of the `JmpFalse` arm of `Process::execute`: a Number is
falsy iff it is not greater than `0.0`, a Boolean is falsy iff it is `false`,
and every non-numeric/non-boolean value is falsy. -/
def falsy (v : Value) : Bool :=
  match v with
  | .Number val => !val.gtZero
  | .Boolean val => !val
  | _ => true

/-- C7.  `JmpFalse(reg, target)`: on a falsy register value (Number ≤ 0 — for a
normalized rational `q.num ≤ 0` is exactly `q ≤ 0` —, Boolean `false`, or any
non-numeric/non-boolean value) the instruction pointer is set to `target - 1`,
so the loop's automatic `+1` advance makes the next fetched instruction exactly
`target`; on a truthy value the pointer is untouched and the loop falls
through to `ip + 1`.  (`1 ≤ target` keeps `target - 1` inside `usize`; every
generated `JmpFalse` target satisfies it, see the C10 theorem.) -/
theorem C7_jmpfalse_semantics (p : Process) (reg : Register) (target fuel : Nat)
    (h1 : p.ip < p.program.length) (h2 : p.halt = false)
    (h3 : p.program.getD p.ip .Halt = .JmpFalse reg target) (h4 : 1 ≤ target) :
    (∀ q : Q, falsy (.Number (.finite q)) = decide (q.num ≤ 0)) ∧
    (falsy (p.regGet reg) = true →
      p.execute (.JmpFalse reg target) = .ok { p with ip := target - 1 } ∧
      runFuel (fuel + 1) p = runFuel fuel { p with ip := target }) ∧
    (falsy (p.regGet reg) = false →
      p.execute (.JmpFalse reg target) = .ok p ∧
      runFuel (fuel + 1) p = runFuel fuel { p with ip := p.ip + 1 }) := by
  refine ⟨?_, ?_, ?_⟩
  · intro q
    simp only [falsy, F64.gtZero, Q.pos]
    rw [← decide_not]
    simp [Int.not_lt]
  · intro hf
    have hexec : p.execute (.JmpFalse reg target) = .ok { p with ip := target - 1 } := by
      rcases hv : p.regGet reg with _ | n | b | s <;>
        rw [hv] at hf <;> simp [falsy] at hf <;>
        simp [Process.execute, hv, hf]
    refine ⟨hexec, ?_⟩
    have hs : stepA p = .inr { p with ip := target } := by
      rw [stepA, if_pos ⟨h1, h2⟩, h3, hexec]
      show Sum.inr { p with ip := target - 1 + 1 } = _
      have ht : target - 1 + 1 = target := by omega
      rw [ht]
    rw [runFuel, hs]
  · intro hf
    have hexec : p.execute (.JmpFalse reg target) = .ok p := by
      rcases hv : p.regGet reg with _ | n | b | s <;>
        rw [hv] at hf <;> simp [falsy] at hf <;>
        simp [Process.execute, hv, hf]
    refine ⟨hexec, ?_⟩
    have hs : stepA p = .inr { p with ip := p.ip + 1 } := by
      rw [stepA, if_pos ⟨h1, h2⟩, h3, hexec]
    rw [runFuel, hs]

/-- Falsy-side process for the C7 witness: `r0` holds `Number 0.0`. -/
def c7pFalsy : Process :=
  { Process.new 0 with registers := [.Number (.finite (.ofInt 0))],
                       program := [.JmpFalse ⟨0⟩ 1] }

/-- Truthy-side process for the C7 witness: `r0` holds `Number 2.0`. -/
def c7pTruthy : Process :=
  { Process.new 0 with registers := [.Number (.finite (.ofInt 2))],
                       program := [.JmpFalse ⟨0⟩ 1] }

/-- Witness for `C7_jmpfalse_semantics` at concrete states, both branches. -/
theorem C7_jmpfalse_semantics_witness :
    falsy (Value.Number (.finite (.ofInt 0))) = decide ((0 : Int) ≤ 0) ∧
    (c7pFalsy.execute (.JmpFalse ⟨0⟩ 1) = .ok { c7pFalsy with ip := 0 } ∧
      runFuel 2 c7pFalsy = runFuel 1 { c7pFalsy with ip := 1 }) ∧
    (c7pTruthy.execute (.JmpFalse ⟨0⟩ 1) = .ok c7pTruthy ∧
      runFuel 2 c7pTruthy = runFuel 1 { c7pTruthy with ip := 1 }) :=
  ⟨(C7_jmpfalse_semantics c7pFalsy ⟨0⟩ 1 1 (by decide) (by decide) (by decide)
      (by decide)).1 (.ofInt 0),
   (C7_jmpfalse_semantics c7pFalsy ⟨0⟩ 1 1 (by decide) (by decide) (by decide)
      (by decide)).2.1 (by decide),
   (C7_jmpfalse_semantics c7pTruthy ⟨0⟩ 1 1 (by decide) (by decide) (by decide)
      (by decide)).2.2 (by decide)⟩

/-- C9.  `LoadVar(reg, name)`: if `name` has no binding in the variable store,
the run stops at once with `UndefinedVariable` carrying the process id and the
name, and the error state is `p` itself — in particular `reg` is left exactly
as it was, no default is written.  If `name` is bound to `v`, the value is
copied into `reg`, no error is raised, and the loop continues normally. -/
theorem C9_loadvar_semantics (p : Process) (reg : Register) (name : String)
    (fuel : Nat) (h1 : p.ip < p.program.length) (h2 : p.halt = false)
    (h3 : p.program.getD p.ip .Halt = .LoadVar reg name) :
    (varsGet p.vars name = none →
      p.execute (.LoadVar reg name) = .error (.UndefinedVariable p.pid name) ∧
      runFuel (fuel + 1) p = some (.err (.UndefinedVariable p.pid name) p)) ∧
    (∀ v, varsGet p.vars name = some v →
      p.execute (.LoadVar reg name) = .ok (p.regSet reg v) ∧
      runFuel (fuel + 1) p = runFuel fuel { p.regSet reg v with ip := p.ip + 1 }) := by
  constructor
  · intro hnone
    have hexec : p.execute (.LoadVar reg name) =
        .error (.UndefinedVariable p.pid name) := by
      simp [Process.execute, hnone]
    refine ⟨hexec, ?_⟩
    have hs : stepA p = .inl (.err (.UndefinedVariable p.pid name) p) := by
      rw [stepA, if_pos ⟨h1, h2⟩, h3, hexec]
    rw [runFuel, hs]
  · intro v hsome
    have hexec : p.execute (.LoadVar reg name) = .ok (p.regSet reg v) := by
      simp [Process.execute, hsome]
    refine ⟨hexec, ?_⟩
    have hs : stepA p = .inr { p.regSet reg v with ip := p.ip + 1 } := by
      rw [stepA, if_pos ⟨h1, h2⟩, h3, hexec]
      exact rfl
    rw [runFuel, hs]

/-- Unbound-side process for the C9 witness: empty variable store. -/
def c9pUnbound : Process :=
  { Process.new 3 with registers := [.Empty], program := [.LoadVar ⟨0⟩ "y"] }

/-- Bound-side process for the C9 witness: `y` bound to `Number 7.0`. -/
def c9pBound : Process :=
  { Process.new 3 with registers := [.Empty], program := [.LoadVar ⟨0⟩ "y"],
                       vars := [("y", .Number (.finite (.ofInt 7)))] }

/-- Witness for `C9_loadvar_semantics` at concrete states, both branches. -/
theorem C9_loadvar_semantics_witness :
    (c9pUnbound.execute (.LoadVar ⟨0⟩ "y") = .error (.UndefinedVariable 3 "y") ∧
      runFuel 2 c9pUnbound = some (.err (.UndefinedVariable 3 "y") c9pUnbound)) ∧
    (c9pBound.execute (.LoadVar ⟨0⟩ "y") =
        .ok (c9pBound.regSet ⟨0⟩ (.Number (.finite (.ofInt 7)))) ∧
      runFuel 2 c9pBound =
        runFuel 1 { c9pBound.regSet ⟨0⟩ (.Number (.finite (.ofInt 7))) with
                      ip := c9pBound.ip + 1 }) :=
  ⟨by
      have h := (C9_loadvar_semantics c9pUnbound ⟨0⟩ "y" 1 (by decide) (by decide)
        (by decide)).1 (by decide)
      exact h,
   by
      have h := (C9_loadvar_semantics c9pBound ⟨0⟩ "y" 1 (by decide) (by decide)
        (by decide)).2 (.Number (.finite (.ofInt 7))) (by decide)
      exact h⟩

/-- Does an instruction have a safe `JmpFalse` target (at least 1)?  All other
instruction kinds are trivially fine. -/
def targetOK : Instruction → Bool
  | .JmpFalse _ t => decide (1 ≤ t)
  | _ => true

/-- The relation `genOK old new`: `new` extends `old` by a suffix of instructions whose
`JmpFalse` targets are all at least 1.  This is the invariant the backpatching
discipline of `BytecodeGenerator::generate` maintains: a placeholder target `0`
may exist only inside a call, never in what a call adds to the stream. -/
def genOK (old new : List Instruction) : Prop :=
  ∃ d, new = old ++ d ∧ ∀ i ∈ d, targetOK i = true

theorem genOK_append (l xs : List Instruction)
    (h : ∀ i ∈ xs, targetOK i = true) : genOK l (l ++ xs) :=
  ⟨xs, rfl, h⟩

theorem genOK_trans {a b c : List Instruction} (h1 : genOK a b) (h2 : genOK b c) :
    genOK a c := by
  obtain ⟨d1, rfl, h1ok⟩ := h1
  obtain ⟨d2, rfl, h2ok⟩ := h2
  refine ⟨d1 ++ d2, by simp, ?_⟩
  intro i hi
  rcases List.mem_append.mp hi with h | h
  exacts [h1ok i h, h2ok i h]

/-- Overwriting the entry right after a prefix `a` (backpatching the
placeholder emitted at index `a.length`). -/
theorem list_set_at_junction {α : Type} (a : List α) (x : α) (b : List α) (v : α) :
    (a ++ x :: b).set a.length v = a ++ v :: b := by
  induction a with
  | nil => rfl
  | cons y ys ih => simp [List.set, ih]

/-- Variant of `list_set_at_junction` with the index given through an equation (avoids
rewriting the length inside self-referencing positions). -/
theorem list_set_at_junction_of_len {α : Type} (a : List α) (x : α) (b : List α)
    (v : α) (n : Nat) (hn : n = a.length) : (a ++ x :: b).set n v = a ++ v :: b := by
  rw [hn]
  exact list_set_at_junction a x b v

mutual

/-- Each `generate` call only appends instructions whose final `JmpFalse`
targets are at least 1: every placeholder `JmpFalse _ 0` it pushes is
overwritten (backpatched) before the call returns, and each patched target is
the index of a position strictly after the placeholder's own index, hence
positive. -/
theorem generate_spec : ∀ (n : ASTNode) (g : BytecodeGenerator),
    genOK g.instructions (generate n g).2.instructions
  | .StringLiteral s, g => by
      refine genOK_append _ _ ?_
      intro i hi
      simp only [List.mem_singleton] at hi
      subst hi
      rfl
  | .NumberLiteral v, g => by
      refine genOK_append _ _ ?_
      intro i hi
      simp only [List.mem_singleton] at hi
      subst hi
      rfl
  | .Variable name, g => by
      refine genOK_append _ _ ?_
      intro i hi
      simp only [List.mem_singleton] at hi
      subst hi
      rfl
  | .BinaryOp left op right, g => by
      have sL := generate_spec left g
      rcases hL : generate left g with ⟨left_reg, g1⟩
      rw [hL] at sL
      simp only at sL
      have sR := generate_spec right g1
      rcases hR : generate right g1 with ⟨right_reg, g2⟩
      rw [hR] at sR
      simp only at sR
      simp only [generate, hL, hR, allocate_register]
      refine genOK_trans (genOK_trans sL sR) (genOK_append _ _ ?_)
      intro i hi
      simp only [List.mem_singleton] at hi
      subst hi
      cases op <;> rfl
  | .Assignment name value, g => by
      have sV := generate_spec value g
      rcases hV : generate value g with ⟨value_reg, g1⟩
      rw [hV] at sV
      simp only at sV
      simp only [generate, hV]
      refine genOK_trans sV (genOK_append _ _ ?_)
      intro i hi
      simp only [List.mem_singleton] at hi
      subst hi
      rfl
  | .Block statements, g => by
      simp only [generate, allocate_register]
      exact generateList_spec statements ⟨g.next_register⟩
        { g with next_register := g.next_register + 1 }
  | .If condition then_branch .none, g => by
      have sC := generate_spec condition g
      rcases hC : generate condition g with ⟨cr, g1⟩
      rw [hC] at sC
      simp only at sC
      obtain ⟨c, hc, hcok⟩ := sC
      have sT := generate_spec then_branch { g1 with instructions := g1.instructions ++ [.JmpFalse cr 0] }
      rcases hT : generate then_branch { g1 with instructions := g1.instructions ++ [.JmpFalse cr 0] } with ⟨tr, g3⟩
      rw [hT] at sT
      simp only at sT
      obtain ⟨t, ht, htok⟩ := sT
      simp only [generate, hC, hT, allocate_register]
      set E := g3.instructions.length with hEdef
      have hshape : g3.instructions = (g.instructions ++ c) ++ Instruction.JmpFalse cr 0 :: t := by
        rw [ht, hc]
        simp
      have hlen : g1.instructions.length = (g.instructions ++ c).length := by rw [hc]
      have hE1 : 1 ≤ E := by
        rw [hEdef, hshape]
        simp only [List.length_append, List.length_cons]
        omega
      rw [hshape, hlen, list_set_at_junction]
      refine ⟨c ++ Instruction.JmpFalse cr E :: t, by simp, ?_⟩
      intro i hi
      rcases List.mem_append.mp hi with h | h
      · exact hcok i h
      · rcases List.mem_cons.mp h with h | h
        · subst h
          simp [targetOK, hE1]
        · exact htok i h
  | .If condition then_branch (.some else_b), g => by
      have sC := generate_spec condition g
      rcases hC : generate condition g with ⟨cr, g1⟩
      rw [hC] at sC
      simp only at sC
      obtain ⟨c, hc, hcok⟩ := sC
      have sT := generate_spec then_branch { g1 with instructions := g1.instructions ++ [.JmpFalse cr 0] }
      rcases hT : generate then_branch { g1 with instructions := g1.instructions ++ [.JmpFalse cr 0] } with ⟨tr, g3⟩
      rw [hT] at sT
      simp only at sT
      obtain ⟨t, ht, htok⟩ := sT
      simp only [generate, hC, hT, allocate_register]
      set E := g3.instructions.length with hEdef
      have hlen : g1.instructions.length = (g.instructions ++ c).length := by rw [hc]
      have hpatch : (g3.instructions ++ [Instruction.Jmp 0]).set g1.instructions.length (Instruction.JmpFalse cr (E + 1)) = (g.instructions ++ c) ++ Instruction.JmpFalse cr (E + 1) :: (t ++ [Instruction.Jmp 0]) := by
        have hform : g3.instructions ++ [Instruction.Jmp 0] = (g.instructions ++ c) ++ Instruction.JmpFalse cr 0 :: (t ++ [Instruction.Jmp 0]) := by
          rw [ht, hc]
          simp
        rw [hform, hlen, list_set_at_junction]
      rcases hE : generate else_b { g3 with instructions := (g3.instructions ++ [Instruction.Jmp 0]).set g1.instructions.length (Instruction.JmpFalse cr (E + 1)) } with ⟨er, g6⟩
      have sE := generate_spec else_b { g3 with instructions := (g3.instructions ++ [Instruction.Jmp 0]).set g1.instructions.length (Instruction.JmpFalse cr (E + 1)) }
      rw [hE] at sE
      simp only at sE
      obtain ⟨e, he, heok⟩ := sE
      rw [hpatch] at he
      simp only [hE]
      have hsplit : g6.instructions = ((g.instructions ++ c) ++ Instruction.JmpFalse cr (E + 1) :: t) ++ Instruction.Jmp 0 :: e := by
        rw [he]
        simp
      have hlenA : E = (((g.instructions ++ c) ++ Instruction.JmpFalse cr (E + 1) :: t)).length := by
        simp only [hEdef, ht, hc, List.length_append, List.length_cons, List.length_nil]
        omega
      rw [hsplit, list_set_at_junction_of_len _ _ _ _ _ hlenA]
      refine ⟨c ++ Instruction.JmpFalse cr (E + 1) :: (t ++ Instruction.Jmp (((g.instructions ++ c) ++ Instruction.JmpFalse cr (E + 1) :: t) ++ Instruction.Jmp 0 :: e).length :: e), by simp, ?_⟩
      intro i hi
      rcases List.mem_append.mp hi with h | h
      · exact hcok i h
      rcases List.mem_cons.mp h with h | h
      · subst h
        simp [targetOK]
      rcases List.mem_append.mp h with h | h
      · exact htok i h
      rcases List.mem_cons.mp h with h | h
      · subst h
        rfl
      · exact heok i h
  | .While condition body, g => by
      have sC := generate_spec condition g
      rcases hC : generate condition g with ⟨cr, g1⟩
      rw [hC] at sC
      simp only at sC
      obtain ⟨c, hc, hcok⟩ := sC
      have sB := generate_spec body { g1 with instructions := g1.instructions ++ [.JmpFalse cr 0] }
      rcases hB : generate body { g1 with instructions := g1.instructions ++ [.JmpFalse cr 0] } with ⟨br, g3⟩
      rw [hB] at sB
      simp only at sB
      obtain ⟨b, hb, hbok⟩ := sB
      simp only [generate, hC, hB, allocate_register]
      have hshape : g3.instructions ++ [Instruction.Jmp g.instructions.length] = (g.instructions ++ c) ++ Instruction.JmpFalse cr 0 :: (b ++ [Instruction.Jmp g.instructions.length]) := by
        rw [hb, hc]
        simp
      have hlen : g1.instructions.length = (g.instructions ++ c).length := by rw [hc]
      have hE1 : 1 ≤ (g3.instructions ++ [Instruction.Jmp g.instructions.length]).length := by
        simp only [List.length_append, List.length_cons, List.length_nil]
        omega
      rw [hshape, hlen, list_set_at_junction]
      rw [hshape] at hE1
      refine ⟨c ++ Instruction.JmpFalse cr ((g.instructions ++ c) ++ Instruction.JmpFalse cr 0 :: (b ++ [Instruction.Jmp g.instructions.length])).length :: (b ++ [Instruction.Jmp g.instructions.length]), by simp, ?_⟩
      intro i hi
      rcases List.mem_append.mp hi with h | h
      · exact hcok i h
      rcases List.mem_cons.mp h with h | h
      · subst h
        simp only [targetOK, decide_eq_true_eq, List.length_append, List.length_cons]
        omega
      rcases List.mem_append.mp h with h | h
      · exact hbok i h
      · rcases List.mem_singleton.mp h with h
        subst h
        rfl

/-- The `Block` loop: generating each statement in order only appends
target-safe instructions. -/
theorem generateList_spec : ∀ (l : ASTList) (r : Register) (g : BytecodeGenerator),
    genOK g.instructions (generateList l r g).2.instructions
  | .nil, r, g => ⟨[], by simp [generateList], by intro i hi; simp at hi⟩
  | .cons s rest, r, g => by
      have sS := generate_spec s g
      rcases hS : generate s g with ⟨r1, g1⟩
      rw [hS] at sS
      simp only at sS
      simp only [generateList, hS]
      exact genOK_trans sS (generateList_spec rest r1 g1)

end

/-- C10.  Every `JmpFalse` in the instruction sequence produced by
`BytecodeGenerator::generate` (from a fresh generator) has a final, backpatched
target of at least 1 — no placeholder target `0` survives generation — so the
executor's `target - 1` never underflows when the jump is taken. -/
theorem C10_jmpfalse_targets_positive (n : ASTNode) :
    ∀ reg t, Instruction.JmpFalse reg t ∈
      (generate n BytecodeGenerator.new).2.instructions → 1 ≤ t := by
  obtain ⟨d, hd, hok⟩ := generate_spec n BytecodeGenerator.new
  intro reg t hmem
  rw [hd] at hmem
  have hmem2 : Instruction.JmpFalse reg t ∈ d := by
    simpa [BytecodeGenerator.new] using hmem
  have := hok _ hmem2
  simpa [targetOK] using this

/-- Witness for `C10_jmpfalse_targets_positive`: the C4 program's loop
`JmpFalse` sits at index 5 with backpatched target 11. -/
theorem C10_jmpfalse_targets_positive_witness :
    (Instruction.JmpFalse ⟨4⟩ 11 ∈
      (generate c4ast BytecodeGenerator.new).2.instructions) ∧ 1 ≤ 11 :=
  ⟨by decide, C10_jmpfalse_targets_positive c4ast ⟨4⟩ 11 (by decide)⟩
